import Mathlib

/-!
Verification of the mancala-rs core (rules engine, move generator, minimax search).

The Rust sources are shallowly embedded:
* `src/mancala/mod.rs` — `Player`, `Error`, `SubNode` (board + turn), `sub_move`
  (one atomic sow, with capture and extra-turn rules), `sub_children`,
  `children_from_sub_node` / `children` (compound-move generator), `full_move`, `eval`,
  and the default (starting) position.
* `src/minimax/mod.rs` — `minimax` with the `alpha`/`beta` bounds threaded as mutable
  state through every recursive call (modelled by returning the updated pair).

Boards are lists of 14 natural numbers (the data model fixes 14 non-negative stone
counts); scores are integers, with `i32::MIN`/`i32::MAX` as explicit constants.
The `while` loop of `sub_move` is `sowLoop`, recursing on the number of stones still
to deposit; one step advances the cursor and, when it would be the opponent's store,
advances once more — exactly the source's skip (the skipped slot never repeats since
the board has more than one slot).  The recursion of `children_from_sub_node` is
modelled with explicit fuel; the source's termination argument (each chained sow
strictly decreases the stones outside the stores, spec §4.2) makes
`board.sum + 1` sufficient fuel, which `children_fuel_stable` proves.
-/

namespace Mancala

/-- Player colour, `Player` in the source. -/
inductive Player where
  | white
  | black
deriving DecidableEq

/-- The source's `Player::toggled`. -/
def Player.toggled : Player → Player
  | .white => .black
  | .black => .white

/-- The source's `Error`: `IndexError` (pocket outside the mover's own playing range)
and `EmptyError` (chosen pocket holds no stones). -/
inductive Error where
  | indexError
  | emptyError
deriving DecidableEq

/-- `type Move = Vec<Pocket>` — an ordered list of pocket indices. -/
abbrev Move := List Nat

/-- `pub const BOARD_SIZE: Pocket = 14`. -/
def BOARD_SIZE : Nat := 14

/-- `pub const STONES: Score = 4`. -/
def STONES : Nat := 4

/-- `pub const WHITE_POCKET: Pocket = 6` — White's store. -/
def WHITE_POCKET : Nat := 6

/-- `pub const BLACK_POCKET: Pocket = 13` — Black's store. -/
def BLACK_POCKET : Nat := 13

/-- `i32::MIN`, the initial `max_score` / top-level `alpha`. -/
def SCORE_MIN : Int := -(2 ^ 31)

/-- `i32::MAX`, the initial `min_score` / top-level `beta`. -/
def SCORE_MAX : Int := 2 ^ 31 - 1

/-- Board position possibly in the middle of a compound move: `struct SubNode`. -/
structure SubNode where
  board : List Nat
  turn : Player
deriving DecidableEq

/-- First component of the tuple `sub_move` matches on: the mover's own store. -/
def own_pocket : Player → Nat
  | .white => WHITE_POCKET
  | .black => BLACK_POCKET

/-- Second component: the opponent's store (skipped while sowing). -/
def enemy_pocket : Player → Nat
  | .white => BLACK_POCKET
  | .black => WHITE_POCKET

/-- Third component: first index of the mover's own playing range. -/
def start_index : Player → Nat
  | .white => (BLACK_POCKET + 1) % BOARD_SIZE
  | .black => (WHITE_POCKET + 1) % BOARD_SIZE

/-- Fourth component: one past the last index of the mover's own playing range. -/
def end_index : Player → Nat
  | .white => WHITE_POCKET
  | .black => BLACK_POCKET

/-- The source's `SubNode::opposite`: `(BOARD_SIZE - 2) - pocket`. -/
def SubNode.opposite (pocket : Nat) : Nat :=
  (BOARD_SIZE - 2) - pocket

/-- The `while count > 0` loop of `sub_move`: advance the cursor one slot around the
circular board, advancing once more when the slot is the opponent's store, and deposit
one stone there; returns the board and the final cursor (last deposit slot). -/
def sowLoop (enemy : Nat) : List Nat → Nat → Nat → List Nat × Nat
  | b, cursor, 0 => (b, cursor)
  | b, cursor, count + 1 =>
      let c1 := (cursor + 1) % BOARD_SIZE
      let c := if c1 = enemy then (c1 + 1) % BOARD_SIZE else c1
      sowLoop enemy (b.set c (b.getD c 0 + 1)) c count

/-- The source's `SubNode::sub_move`, with the `&mut self` + `Result<(), Error>`
signature modelled by returning the (possibly unchanged) state together with an
optional error. -/
def SubNode.sub_move (s : SubNode) (pocket : Nat) : SubNode × Option Error :=
  if pocket < start_index s.turn ∨ end_index s.turn ≤ pocket then
    (s, some .indexError)
  else if s.board.getD pocket 0 = 0 then
    (s, some .emptyError)
  else
    let count := s.board.getD pocket 0
    let walked := sowLoop (enemy_pocket s.turn) (s.board.set pocket 0) pocket count
    let b := walked.1
    let cursor := walked.2
    if cursor = own_pocket s.turn then
      ({ s with board := b }, none)
    else
      let b2 :=
        if b.getD cursor 0 = 1 ∧ start_index s.turn ≤ cursor ∧ cursor < end_index s.turn then
          let opp := SubNode.opposite cursor
          ((b.set (own_pocket s.turn)
              (b.getD (own_pocket s.turn) 0 + (b.getD opp 0 + 1))).set opp 0).set cursor 0
        else b
      ({ board := b2, turn := s.turn.toggled }, none)

/-- The source's `SubNode::sub_children`: try every pocket `0..BOARD_SIZE` and keep
the successful sows, each paired with the pocket that produced it. -/
def SubNode.sub_children (s : SubNode) : List (Nat × SubNode) :=
  (List.range BOARD_SIZE).filterMap fun pocket =>
    match s.sub_move pocket with
    | (t, none) => some (pocket, t)
    | (_, some _) => none

/-- The source's `impl Default for SubNode`: stores 0, every other pocket `STONES`,
White to move. -/
def SubNode.start : SubNode where
  board := (List.range BOARD_SIZE).map fun i =>
    if i = WHITE_POCKET ∨ i = BLACK_POCKET then 0 else STONES
  turn := .white

/-- `pub struct Node(SubNode)`. -/
structure Node where
  sub : SubNode
deriving DecidableEq

/-- The source's `Node::children_from_sub_node`, recursion depth made explicit as
fuel (`children_fuel_stable` below shows `board.sum + 1` is enough, matching the
source's termination argument).  Moves are built in reverse order, the just-played
pocket appended at the end of each recursively obtained fragment. -/
def children_from_sub_node : Nat → SubNode → List (Move × Node)
  | 0, _ => []
  | fuel + 1, s =>
      s.sub_children.flatMap fun pc =>
        if pc.2.turn ≠ s.turn then
          [([pc.1], ⟨pc.2⟩)]
        else
          (children_from_sub_node fuel pc.2).map fun fragment_node =>
            (fragment_node.1 ++ [pc.1], fragment_node.2)

/-- The source's `Node::children`: generate with the reverse-order fragments, then
reverse each move. -/
def Node.children (n : Node) : List (Move × Node) :=
  (children_from_sub_node (n.sub.board.sum + 1) n.sub).map fun mv_node =>
    (mv_node.1.reverse, mv_node.2)

/-- The source's `Node::full_move`: apply the sows in order, stopping at the first
error (`?` propagates the error and keeps the sows already applied). -/
def Node.full_move (n : Node) : Move → Node × Option Error
  | [] => (n, none)
  | p :: rest =>
      match n.sub.sub_move p with
      | (t, none) => Node.full_move ⟨t⟩ rest
      | (t, some e) => (⟨t⟩, some e)

/-- The source's `Node::eval`: store-only differential, White minus Black. -/
def Node.eval (n : Node) : Int :=
  (n.sub.board.getD WHITE_POCKET 0 : Int) - (n.sub.board.getD BLACK_POCKET 0 : Int)

/-- The source's `Node::get_turn`. -/
def Node.get_turn (n : Node) : Player :=
  n.sub.turn

/-- White's swept total: store plus the six White playing pockets `0..5`. -/
def white_total (b : List Nat) : Nat :=
  b.getD WHITE_POCKET 0 + ((List.range 6).map fun p => b.getD p 0).sum

/-- Black's swept total: store plus the six Black playing pockets `7..12`. -/
def black_total (b : List Nat) : Nat :=
  b.getD BLACK_POCKET 0 + ((List.range 6).map fun p => b.getD (7 + p) 0).sum

/-- Modelled from the spec: `Node::final_score` is called by `minimax` and `main` but
its definition is absent from the sources under `src/`.  Spec §4.3: "`final_score`
credits each side's store plus all stones remaining on that side's playing pockets
(the standard end-of-game sweep), then subtracts Black's total from White's." -/
def Node.final_score (n : Node) : Int :=
  (white_total n.sub.board : Int) - (black_total n.sub.board : Int)

/-- The White (maximizing) loop of `minimax`, `f` being the recursive call at
`depth - 1`.  The updated `alpha`/`beta` coming back from each child call replace the
caller's (they are one shared mutable pair in the source); adoption is on strictly
greater score; on cutoff (`max_score > *beta`) the loop stops without the final
`alpha` raise. -/
def maxLoop (f : Node → Int → Int → (Option Move × Int) × Int × Int) :
    List (Move × Node) → Int → Int → Int → Move → Move × Int × Int × Int
  | [], alpha, beta, max_score, max_move => (max_move, max_score, alpha, beta)
  | mc :: rest, alpha, beta, max_score, max_move =>
      let r := f mc.2 alpha beta
      let score := r.1.2
      let alpha1 := r.2.1
      let beta1 := r.2.2
      let best := if max_score < score then (score, mc.1) else (max_score, max_move)
      if beta1 < best.1 then (best.2, best.1, alpha1, beta1)
      else maxLoop f rest (max alpha1 best.1) beta1 best.1 best.2

/-- The Black (minimizing) loop of `minimax`, mirror of `maxLoop`. -/
def minLoop (f : Node → Int → Int → (Option Move × Int) × Int × Int) :
    List (Move × Node) → Int → Int → Int → Move → Move × Int × Int × Int
  | [], alpha, beta, min_score, min_move => (min_move, min_score, alpha, beta)
  | mc :: rest, alpha, beta, min_score, min_move =>
      let r := f mc.2 alpha beta
      let score := r.1.2
      let alpha1 := r.2.1
      let beta1 := r.2.2
      let best := if score < min_score then (score, mc.1) else (min_score, min_move)
      if best.1 < alpha1 then (best.2, best.1, alpha1, beta1)
      else minLoop f rest alpha1 (min beta1 best.1) best.1 best.2

/-- The source's `minimax` (src/minimax/mod.rs).  The `&mut alpha`/`&mut beta`
references are modelled by threading the pair through every recursive call and
returning its final value next to the `(Option<Move>, Score)` result.  Order of
checks as in the source: empty child list (terminal) first, then `depth == 0`. -/
def minimax : Nat → Node → Int → Int → (Option Move × Int) × Int × Int
  | 0, node, alpha, beta =>
      if node.children.isEmpty then ((none, node.final_score), alpha, beta)
      else ((none, node.eval), alpha, beta)
  | depth + 1, node, alpha, beta =>
      let children := node.children
      if children.isEmpty then ((none, node.final_score), alpha, beta)
      else
        match node.get_turn with
        | .white =>
            let r := maxLoop (minimax depth) children alpha beta SCORE_MIN []
            ((some r.1, r.2.1), r.2.2)
        | .black =>
            let r := minLoop (minimax depth) children alpha beta SCORE_MAX []
            ((some r.1, r.2.1), r.2.2)

/-- Follows the spec's words (§8 "Alpha-beta equivalence"): "an unpruned full minimax
at the same depth" over the same move generator — identical leaf evaluation and
strict-improvement adoption (first-found move wins ties), but no `alpha`/`beta`
bounds and no cutoff. -/
def minimax_unpruned : Nat → Node → Option Move × Int
  | 0, node =>
      if node.children.isEmpty then (none, node.final_score)
      else (none, node.eval)
  | depth + 1, node =>
      let children := node.children
      if children.isEmpty then (none, node.final_score)
      else
        match node.get_turn with
        | .white =>
            let r := children.foldl
              (fun acc mc =>
                let score := (minimax_unpruned depth mc.2).2
                if acc.2 < score then (mc.1, score) else acc)
              (([] : Move), SCORE_MIN)
            (some r.1, r.2)
        | .black =>
            let r := children.foldl
              (fun acc mc =>
                let score := (minimax_unpruned depth mc.2).2
                if score < acc.2 then (mc.1, score) else acc)
              (([] : Move), SCORE_MAX)
            (some r.1, r.2)

/-- All six of the mover's own playing pockets are empty (the spec's terminality
condition). -/
def own_pockets_empty (s : SubNode) : Prop :=
  ∀ p < end_index s.turn, start_index s.turn ≤ p → s.board.getD p 0 = 0

instance (s : SubNode) : Decidable (own_pockets_empty s) := by
  unfold own_pockets_empty
  infer_instance

/-! ### List helper lemmas -/

theorem getD_set_self {b : List Nat} {i : Nat} (h : i < b.length) (v : Nat) :
    (b.set i v).getD i 0 = v := by
  rw [List.getD_eq_getElem?_getD, List.getElem?_set_self h]
  rfl

theorem getD_set_ne {b : List Nat} {i j : Nat} (h : i ≠ j) (v : Nat) :
    (b.set i v).getD j 0 = b.getD j 0 := by
  rw [List.getD_eq_getElem?_getD, List.getElem?_set_ne h, ← List.getD_eq_getElem?_getD]

theorem sum_set_add {b : List Nat} {i : Nat} (h : i < b.length) (v : Nat) :
    (b.set i v).sum + b.getD i 0 = b.sum + v := by
  induction b generalizing i with
  | nil => simp at h
  | cons a t ih =>
    cases i with
    | zero => simp [List.getD_cons_zero]; omega
    | succ j =>
      have := ih (i := j) (by simpa using h)
      simp only [List.set_cons_succ, List.sum_cons, List.getD_cons_succ]
      omega

/-! ### Sow-loop lemmas -/

theorem sowLoop_length (enemy : Nat) (count : Nat) :
    ∀ b cursor, ((sowLoop enemy b cursor count).1).length = b.length := by
  induction count with
  | zero => intro b cursor; rfl
  | succ k ih =>
    intro b cursor
    rw [sowLoop, ih]
    exact List.length_set ..

theorem sowLoop_sum (enemy : Nat) (count : Nat) :
    ∀ b cursor, b.length = 14 → ((sowLoop enemy b cursor count).1).sum = b.sum + count := by
  induction count with
  | zero => intro b cursor _; rfl
  | succ k ih =>
    intro b cursor hb
    rw [sowLoop]
    have hc : ((if (cursor + 1) % BOARD_SIZE = enemy then
        ((cursor + 1) % BOARD_SIZE + 1) % BOARD_SIZE else (cursor + 1) % BOARD_SIZE)) < 14 := by
      have h1 : (cursor + 1) % BOARD_SIZE < 14 := Nat.mod_lt _ (by decide)
      have h2 : ((cursor + 1) % BOARD_SIZE + 1) % BOARD_SIZE < 14 := Nat.mod_lt _ (by decide)
      split <;> assumption
    set c := (if (cursor + 1) % BOARD_SIZE = enemy then
        ((cursor + 1) % BOARD_SIZE + 1) % BOARD_SIZE else (cursor + 1) % BOARD_SIZE) with hcdef
    have hlen : (b.set c (b.getD c 0 + 1)).length = 14 := by
      rw [List.length_set]; exact hb
    have := ih (b.set c (b.getD c 0 + 1)) c hlen
    rw [this]
    have := sum_set_add (b := b) (i := c) (by omega) (b.getD c 0 + 1)
    omega

/-! ### Basic facts about `sub_move` -/

theorem sub_move_index_err (s : SubNode) (p : Nat)
    (h : p < start_index s.turn ∨ end_index s.turn ≤ p) :
    s.sub_move p = (s, some .indexError) := by
  unfold SubNode.sub_move
  rw [if_pos h]

theorem sub_move_empty_err (s : SubNode) (p : Nat)
    (h1 : ¬(p < start_index s.turn ∨ end_index s.turn ≤ p))
    (h2 : s.board.getD p 0 = 0) :
    s.sub_move p = (s, some .emptyError) := by
  unfold SubNode.sub_move
  rw [if_neg h1, if_pos h2]

theorem sub_move_ok_snd (s : SubNode) (p : Nat)
    (h1 : ¬(p < start_index s.turn ∨ end_index s.turn ≤ p))
    (h2 : s.board.getD p 0 ≠ 0) :
    (s.sub_move p).2 = none := by
  unfold SubNode.sub_move
  rw [if_neg h1, if_neg h2]
  dsimp only
  split <;> rfl

theorem sub_move_fst_of_err (s : SubNode) (p : Nat) (e : Error)
    (h : (s.sub_move p).2 = some e) : (s.sub_move p).1 = s := by
  by_cases h1 : p < start_index s.turn ∨ end_index s.turn ≤ p
  · rw [sub_move_index_err s p h1]
  · by_cases h2 : s.board.getD p 0 = 0
    · rw [sub_move_empty_err s p h1 h2]
    · rw [sub_move_ok_snd s p h1 h2] at h
      exact absurd h (by simp)

theorem sub_move_err_eq (s : SubNode) (p : Nat) (e : Error)
    (h : (s.sub_move p).2 = some e) : s.sub_move p = (s, some e) := by
  have h1 := sub_move_fst_of_err s p e h
  exact Prod.ext h1 h

/-- Full case analysis of a successful `sub_move`: the two precondition checks pass,
and the result is either the own-store landing (turn kept), a capture, or a plain
turn-ending sow. -/
theorem sub_move_ok_cases (s : SubNode) (p : Nat) (t : SubNode)
    (h : s.sub_move p = (t, none)) :
    ∃ b1 cursor,
      ¬(p < start_index s.turn ∨ end_index s.turn ≤ p) ∧ s.board.getD p 0 ≠ 0 ∧
      sowLoop (enemy_pocket s.turn) (s.board.set p 0) p (s.board.getD p 0) = (b1, cursor) ∧
      ((cursor = own_pocket s.turn ∧ t = { s with board := b1 }) ∨
       (cursor ≠ own_pocket s.turn ∧
        ((b1.getD cursor 0 = 1 ∧ start_index s.turn ≤ cursor ∧ cursor < end_index s.turn ∧
          t = { board := ((b1.set (own_pocket s.turn)
                    (b1.getD (own_pocket s.turn) 0 + (b1.getD (SubNode.opposite cursor) 0 + 1))).set
                    (SubNode.opposite cursor) 0).set cursor 0,
                turn := s.turn.toggled }) ∨
         (¬(b1.getD cursor 0 = 1 ∧ start_index s.turn ≤ cursor ∧ cursor < end_index s.turn) ∧
          t = { board := b1, turn := s.turn.toggled })))) := by
  by_cases h1 : p < start_index s.turn ∨ end_index s.turn ≤ p
  · rw [sub_move_index_err s p h1] at h
    exact absurd (congrArg Prod.snd h) (by simp)
  · by_cases h2 : s.board.getD p 0 = 0
    · rw [sub_move_empty_err s p h1 h2] at h
      exact absurd (congrArg Prod.snd h) (by simp)
    · refine ⟨(sowLoop (enemy_pocket s.turn) (s.board.set p 0) p (s.board.getD p 0)).1,
        (sowLoop (enemy_pocket s.turn) (s.board.set p 0) p (s.board.getD p 0)).2,
        h1, h2, rfl, ?_⟩
      unfold SubNode.sub_move at h
      rw [if_neg h1, if_neg h2] at h
      dsimp only at h
      split at h
      · rename_i hcur
        exact Or.inl ⟨hcur, by injection h with h' _; exact h'.symm⟩
      · rename_i hcur
        refine Or.inr ⟨hcur, ?_⟩
        split at h
        · rename_i hcap
          exact Or.inl ⟨hcap.1, hcap.2.1, hcap.2.2, by injection h with h' _; exact h'.symm⟩
        · rename_i hcap
          exact Or.inr ⟨hcap, by injection h with h' _; exact h'.symm⟩

theorem sub_move_ok_length (s : SubNode) (p : Nat) (t : SubNode)
    (h : s.sub_move p = (t, none)) : t.board.length = s.board.length := by
  obtain ⟨b1, cursor, h1, h2, hsow, hcases⟩ := sub_move_ok_cases s p t h
  have hb1 : b1.length = s.board.length := by
    have := sowLoop_length (enemy_pocket s.turn) (s.board.getD p 0) (s.board.set p 0) p
    rw [hsow] at this
    simpa [List.length_set] using this
  rcases hcases with ⟨_, ht⟩ | ⟨_, ⟨_, _, _, ht⟩ | ⟨_, ht⟩⟩ <;>
    simp [ht, List.length_set, hb1]

theorem sub_move_ok_sum (s : SubNode) (p : Nat) (t : SubNode)
    (h14 : s.board.length = 14)
    (h : s.sub_move p = (t, none)) : t.board.sum = s.board.sum := by
  obtain ⟨b1, cursor, h1, h2, hsow, hcases⟩ := sub_move_ok_cases s p t h
  push_neg at h1
  obtain ⟨hps, hpe⟩ := h1
  have hpend : end_index s.turn ≤ 13 := by cases s.turn <;> decide
  have hp14 : p < 14 := by omega
  have hb1len : b1.length = 14 := by
    have := sowLoop_length (enemy_pocket s.turn) (s.board.getD p 0) (s.board.set p 0) p
    rw [hsow] at this
    simpa [List.length_set, h14] using this
  have hb1sum : b1.sum = s.board.sum := by
    have hs := sowLoop_sum (enemy_pocket s.turn) (s.board.getD p 0) (s.board.set p 0) p
      (by simpa [List.length_set] using h14)
    rw [hsow] at hs
    have hset := sum_set_add (b := s.board) (i := p) (by omega) 0
    simp only at hs
    omega
  rcases hcases with ⟨_, ht⟩ | ⟨hown, ⟨hcap1, hcs, hce, ht⟩ | ⟨_, ht⟩⟩
  · simp [ht, hb1sum]
  · -- capture: the landing pocket holds 1, the opposite pocket is emptied into the store
    have hfacts : own_pocket s.turn < 14 ∧ SubNode.opposite cursor < 14 ∧ cursor < 14 ∧
        own_pocket s.turn ≠ SubNode.opposite cursor ∧ own_pocket s.turn ≠ cursor ∧
        SubNode.opposite cursor ≠ cursor := by
      revert hcs hce hown
      cases s.turn <;>
        simp only [own_pocket, start_index, end_index, SubNode.opposite, BOARD_SIZE,
          WHITE_POCKET, BLACK_POCKET] <;>
        intros <;> omega
    obtain ⟨ho14, hop14, hc14, hne1, hne2, hne3⟩ := hfacts
    have e1 := sum_set_add (b := b1) (i := own_pocket s.turn) (by omega)
      (b1.getD (own_pocket s.turn) 0 + (b1.getD (SubNode.opposite cursor) 0 + 1))
    set s1 := b1.set (own_pocket s.turn)
      (b1.getD (own_pocket s.turn) 0 + (b1.getD (SubNode.opposite cursor) 0 + 1)) with hs1
    have hs1len : s1.length = 14 := by rw [hs1, List.length_set]; exact hb1len
    have e2 := sum_set_add (b := s1) (i := SubNode.opposite cursor) (by omega) 0
    have e2' : s1.getD (SubNode.opposite cursor) 0 = b1.getD (SubNode.opposite cursor) 0 := by
      rw [hs1]; exact getD_set_ne hne1 _
    set s2 := s1.set (SubNode.opposite cursor) 0 with hs2
    have hs2len : s2.length = 14 := by rw [hs2, List.length_set]; exact hs1len
    have e3 := sum_set_add (b := s2) (i := cursor) (by omega) 0
    have e3' : s2.getD cursor 0 = 1 := by
      rw [hs2, getD_set_ne hne3, hs1, getD_set_ne hne2]
      exact hcap1
    simp only [ht]
    omega
  · simp [ht, hb1sum]

/-! ### Facts about `sub_children`, `full_move` and the move generator -/

theorem mem_sub_children (s : SubNode) (p : Nat) (t : SubNode) :
    (p, t) ∈ s.sub_children ↔ p < BOARD_SIZE ∧ s.sub_move p = (t, none) := by
  unfold SubNode.sub_children
  rw [List.mem_filterMap]
  constructor
  · rintro ⟨a, ha, hfa⟩
    rcases hsm : s.sub_move a with ⟨u, o⟩
    cases o with
    | none =>
        rw [hsm] at hfa
        simp only [Option.some.injEq, Prod.mk.injEq] at hfa
        obtain ⟨rfl, rfl⟩ := hfa
        exact ⟨List.mem_range.mp ha, hsm⟩
    | some e =>
        rw [hsm] at hfa
        simp at hfa
  · rintro ⟨hp, hsm⟩
    exact ⟨p, List.mem_range.mpr hp, by rw [hsm]⟩

theorem full_move_ok_sum (mv : Move) :
    ∀ n m : Node, n.sub.board.length = 14 → n.full_move mv = (m, none) →
      m.sub.board.sum = n.sub.board.sum ∧ m.sub.board.length = 14 := by
  induction mv with
  | nil =>
      intro n m h14 h
      unfold Node.full_move at h
      injection h with h' _
      simp [← h', h14]
  | cons p rest ih =>
      intro n m h14 h
      unfold Node.full_move at h
      rcases hsm : n.sub.sub_move p with ⟨t, o⟩
      cases o with
      | none =>
          rw [hsm] at h
          have hlen : t.board.length = 14 := by
            rw [sub_move_ok_length n.sub p t hsm]; exact h14
          have hsum := sub_move_ok_sum n.sub p t h14 hsm
          have := ih ⟨t⟩ m hlen h
          exact ⟨by rw [this.1, hsum], this.2⟩
      | some e =>
          rw [hsm] at h
          simp at h

/-- Soundness of the move generator at any fuel: every generated (reverse-order
fragment, node) pair replays, sow by sow, from the position it was generated from
to exactly the paired node. -/
theorem children_from_sub_node_sound :
    ∀ fuel s frag m, (frag, m) ∈ children_from_sub_node fuel s →
      Node.full_move ⟨s⟩ frag.reverse = (m, none) := by
  intro fuel
  induction fuel with
  | zero => intro s frag m hmem; simp [children_from_sub_node] at hmem
  | succ k ih =>
      intro s frag m hmem
      unfold children_from_sub_node at hmem
      rw [List.mem_flatMap] at hmem
      obtain ⟨⟨p, t⟩, hpc, hmem⟩ := hmem
      obtain ⟨hp, hsm⟩ := (mem_sub_children s p t).mp hpc
      by_cases ht : t.turn ≠ s.turn
      · rw [if_pos ht] at hmem
        simp only [List.mem_singleton, Prod.mk.injEq] at hmem
        obtain ⟨rfl, rfl⟩ := hmem
        simp only [List.reverse_singleton]
        unfold Node.full_move
        rw [hsm]
        rfl
      · rw [if_neg ht] at hmem
        rw [List.mem_map] at hmem
        obtain ⟨⟨frag', m'⟩, hmem', heq⟩ := hmem
        simp only [Prod.mk.injEq] at heq
        obtain ⟨hfrag, hm⟩ := heq
        subst hfrag
        subst hm
        have hIH := ih t frag' m' hmem'
        rw [List.reverse_append, List.reverse_singleton]
        show Node.full_move ⟨s⟩ (p :: frag'.reverse) = (m', none)
        unfold Node.full_move
        rw [hsm]
        exact hIH

theorem sub_children_eq_nil (s : SubNode) (h : own_pockets_empty s) :
    s.sub_children = [] := by
  unfold SubNode.sub_children
  rw [List.filterMap_eq_nil_iff]
  intro p _
  by_cases h1 : p < start_index s.turn ∨ end_index s.turn ≤ p
  · rw [sub_move_index_err s p h1]
  · push_neg at h1
    rw [sub_move_empty_err s p (by push_neg; exact h1) (h p h1.2 h1.1)]

/-! ### Adequacy of the move generator's fuel

The source's recursion terminates because every chained sow (one that keeps the turn)
strictly decreases the stones outside the two stores (spec §4.2).  The lemmas below
prove that measure decreases and conclude that any two fuels above it produce the same
children list, so the `board.sum + 1` used by `Node.children` is faithful. -/

theorem getD_le_sum {b : List Nat} {i : Nat} : b.getD i 0 ≤ b.sum := by
  induction b generalizing i with
  | nil => simp [List.getD]
  | cons a t ih =>
      cases i with
      | zero =>
          simp only [List.getD_cons_zero, List.sum_cons]
          omega
      | succ j =>
          have := ih (i := j)
          simp only [List.getD_cons_succ, List.sum_cons]
          omega

theorem getD_pair_le_sum {b : List Nat} {i j : Nat} (hij : i < j) (hj : j < b.length) :
    b.getD i 0 + b.getD j 0 ≤ b.sum := by
  induction b generalizing i j with
  | nil => simp at hj
  | cons a t ih =>
      cases i with
      | zero =>
          cases j with
          | zero => omega
          | succ k =>
              have h1 : t.getD k 0 ≤ t.sum := getD_le_sum
              simp only [List.getD_cons_zero, List.getD_cons_succ, List.sum_cons]
              omega
      | succ i' =>
          cases j with
          | zero => omega
          | succ k =>
              have := ih (i := i') (j := k) (by omega) (by simpa using hj)
              simp only [List.getD_cons_succ, List.sum_cons]
              omega

theorem deposit_getD_ge (b : List Nat) (c j : Nat) (hc : c < b.length) :
    b.getD j 0 ≤ (b.set c (b.getD c 0 + 1)).getD j 0 := by
  by_cases hj : c = j
  · subst hj
    rw [getD_set_self hc]
    omega
  · rw [getD_set_ne hj]

theorem sowLoop_getD_ge (enemy : Nat) (count : Nat) :
    ∀ b cursor j, b.length = 14 →
      b.getD j 0 ≤ ((sowLoop enemy b cursor count).1).getD j 0 := by
  induction count with
  | zero => intro b cursor j _; exact le_refl _
  | succ k ih =>
      intro b cursor j hb
      rw [sowLoop]
      set c := (if (cursor + 1) % BOARD_SIZE = enemy then
          ((cursor + 1) % BOARD_SIZE + 1) % BOARD_SIZE else (cursor + 1) % BOARD_SIZE)
        with hcdef
      have hc : c < 14 := by
        have h1 : (cursor + 1) % BOARD_SIZE < 14 := Nat.mod_lt _ (by decide)
        have h2 : ((cursor + 1) % BOARD_SIZE + 1) % BOARD_SIZE < 14 := Nat.mod_lt _ (by decide)
        rw [hcdef]
        split <;> assumption
      calc b.getD j 0 ≤ (b.set c (b.getD c 0 + 1)).getD j 0 :=
            deposit_getD_ge b c j (by omega)
        _ ≤ _ := ih (b.set c (b.getD c 0 + 1)) c j (by rw [List.length_set]; exact hb)

theorem sowLoop_enemy_fixed (enemy : Nat) (count : Nat) :
    ∀ b cursor, ((sowLoop enemy b cursor count).1).getD enemy 0 = b.getD enemy 0 := by
  induction count with
  | zero => intro b cursor; rfl
  | succ k ih =>
      intro b cursor
      rw [sowLoop]
      set c := (if (cursor + 1) % BOARD_SIZE = enemy then
          ((cursor + 1) % BOARD_SIZE + 1) % BOARD_SIZE else (cursor + 1) % BOARD_SIZE)
        with hcdef
      have hcne : c ≠ enemy := by
        rw [hcdef]
        split
        · rename_i heq
          rw [heq]
          simp only [BOARD_SIZE]
          omega
        · rename_i hne
          exact hne
      rw [ih (b.set c (b.getD c 0 + 1)) c]
      exact getD_set_ne hcne _

theorem sowLoop_own_gain (enemy : Nat) (count : Nat) :
    ∀ b cursor, b.length = 14 →
      b.getD ((sowLoop enemy b cursor (count + 1)).2) 0 + 1
        ≤ ((sowLoop enemy b cursor (count + 1)).1).getD
            ((sowLoop enemy b cursor (count + 1)).2) 0 := by
  induction count with
  | zero =>
      intro b cursor hb
      simp only [sowLoop]
      set c := (if (cursor + 1) % BOARD_SIZE = enemy then
          ((cursor + 1) % BOARD_SIZE + 1) % BOARD_SIZE else (cursor + 1) % BOARD_SIZE)
        with hcdef
      have hc : c < 14 := by
        have h1 : (cursor + 1) % BOARD_SIZE < 14 := Nat.mod_lt _ (by decide)
        have h2 : ((cursor + 1) % BOARD_SIZE + 1) % BOARD_SIZE < 14 := Nat.mod_lt _ (by decide)
        rw [hcdef]
        split <;> assumption
      rw [getD_set_self (by omega)]
  | succ k ih =>
      intro b cursor hb
      rw [show sowLoop enemy b cursor (k + 1 + 1)
          = sowLoop enemy
              (b.set (if (cursor + 1) % BOARD_SIZE = enemy then
                  ((cursor + 1) % BOARD_SIZE + 1) % BOARD_SIZE else (cursor + 1) % BOARD_SIZE)
                (b.getD (if (cursor + 1) % BOARD_SIZE = enemy then
                  ((cursor + 1) % BOARD_SIZE + 1) % BOARD_SIZE else (cursor + 1) % BOARD_SIZE) 0
                  + 1))
              (if (cursor + 1) % BOARD_SIZE = enemy then
                  ((cursor + 1) % BOARD_SIZE + 1) % BOARD_SIZE else (cursor + 1) % BOARD_SIZE)
              (k + 1) from rfl]
      set c := (if (cursor + 1) % BOARD_SIZE = enemy then
          ((cursor + 1) % BOARD_SIZE + 1) % BOARD_SIZE else (cursor + 1) % BOARD_SIZE)
        with hcdef
      have hc : c < 14 := by
        have h1 : (cursor + 1) % BOARD_SIZE < 14 := Nat.mod_lt _ (by decide)
        have h2 : ((cursor + 1) % BOARD_SIZE + 1) % BOARD_SIZE < 14 := Nat.mod_lt _ (by decide)
        rw [hcdef]
        split <;> assumption
      have hlen : (b.set c (b.getD c 0 + 1)).length = 14 := by
        rw [List.length_set]; exact hb
      have h1 := ih (b.set c (b.getD c 0 + 1)) c hlen
      have h2 := deposit_getD_ge b c
        ((sowLoop enemy (b.set c (b.getD c 0 + 1)) c (k + 1)).2) (by omega)
      omega

/-- The source's termination measure (spec §4.2): stones outside the two stores. -/
def play_stones (b : List Nat) : Nat :=
  b.sum - (b.getD WHITE_POCKET 0 + b.getD BLACK_POCKET 0)

theorem Player.toggled_ne (pl : Player) : pl.toggled ≠ pl := by
  cases pl <;> decide

/-- A successful sow that keeps the turn (own-store landing) strictly decreases the
stones outside the stores. -/
theorem sub_move_play_stones_lt (s : SubNode) (p : Nat) (t : SubNode)
    (h14 : s.board.length = 14) (h : s.sub_move p = (t, none)) (hturn : t.turn = s.turn) :
    play_stones t.board < play_stones s.board := by
  obtain ⟨b1, cursor, h1, h2, hsow, hcases⟩ := sub_move_ok_cases s p t h
  rcases hcases with ⟨hcur, ht⟩ | ⟨_, hrest⟩
  · push_neg at h1
    obtain ⟨hps, hpe⟩ := h1
    have hb1fst : (sowLoop (enemy_pocket s.turn) (s.board.set p 0) p
        (s.board.getD p 0)).1 = b1 := by rw [hsow]
    have hb1snd : (sowLoop (enemy_pocket s.turn) (s.board.set p 0) p
        (s.board.getD p 0)).2 = cursor := by rw [hsow]
    have hpend : end_index s.turn ≤ 13 := by cases s.turn <;> decide
    have hp14 : p < 14 := by omega
    have hsetlen : (s.board.set p 0).length = 14 := by
      rw [List.length_set]; exact h14
    have hb1len : b1.length = 14 := by
      have := sowLoop_length (enemy_pocket s.turn) (s.board.getD p 0) (s.board.set p 0) p
      rw [hsow] at this
      simpa using this.trans hsetlen
    have hb1sum : b1.sum = s.board.sum := by
      have hs := sowLoop_sum (enemy_pocket s.turn) (s.board.getD p 0) (s.board.set p 0) p
        hsetlen
      rw [hsow] at hs
      have hset := sum_set_add (b := s.board) (i := p) (by omega) 0
      simp only at hs
      omega
    obtain ⟨k, hk⟩ : ∃ k, s.board.getD p 0 = k + 1 :=
      ⟨s.board.getD p 0 - 1, by omega⟩
    have hgain := sowLoop_own_gain (enemy_pocket s.turn) k (s.board.set p 0) p hsetlen
    rw [← hk, hsow] at hgain
    simp only at hgain
    have hvals : (own_pocket s.turn = 6 ∧ enemy_pocket s.turn = 13 ∧
          start_index s.turn = 0 ∧ end_index s.turn = 6) ∨
        (own_pocket s.turn = 13 ∧ enemy_pocket s.turn = 6 ∧
          start_index s.turn = 7 ∧ end_index s.turn = 13) := by
      cases s.turn
      · exact Or.inl (by decide)
      · exact Or.inr (by decide)
    have hpown : p ≠ own_pocket s.turn := by
      rcases hvals with ⟨ho, _, _, he⟩ | ⟨ho, _, _, he⟩ <;> omega
    have hpenemy : p ≠ enemy_pocket s.turn := by
      rcases hvals with ⟨_, he', hs', _⟩ | ⟨_, he', hs', _⟩ <;> omega
    have hown : s.board.getD (own_pocket s.turn) 0 + 1 ≤ b1.getD (own_pocket s.turn) 0 := by
      rw [hcur] at hgain
      rw [getD_set_ne hpown] at hgain
      exact hgain
    have henemy : b1.getD (enemy_pocket s.turn) 0 = s.board.getD (enemy_pocket s.turn) 0 := by
      have := sowLoop_enemy_fixed (enemy_pocket s.turn) (s.board.getD p 0) (s.board.set p 0) p
      rw [hsow] at this
      simp only at this
      rw [this]
      exact getD_set_ne hpenemy _
    have hpair1 : b1.getD 6 0 + b1.getD 13 0 ≤ b1.sum :=
      getD_pair_le_sum (by omega) (by omega)
    have hpair2 : s.board.getD 6 0 + s.board.getD 13 0 ≤ s.board.sum :=
      getD_pair_le_sum (by omega) (by omega)
    rw [ht]
    simp only [play_stones, WHITE_POCKET, BLACK_POCKET]
    rcases hvals with ⟨ho, he, _, _⟩ | ⟨ho, he, _, _⟩ <;>
      rw [ho] at hown <;> rw [he] at henemy <;> omega
  · rcases hrest with ⟨_, _, _, ht⟩ | ⟨_, ht⟩ <;>
      (rw [ht] at hturn; exact absurd hturn (Player.toggled_ne s.turn))

/-- Any two fuels above the termination measure produce the same children list. -/
theorem children_fuel_stable (fuel₁ : Nat) :
    ∀ (s : SubNode) (fuel₂ : Nat), s.board.length = 14 →
      play_stones s.board + 1 ≤ fuel₁ → play_stones s.board + 1 ≤ fuel₂ →
      children_from_sub_node fuel₁ s = children_from_sub_node fuel₂ s := by
  induction fuel₁ using Nat.strong_induction_on with
  | _ fuel₁ ih =>
      intro s fuel₂ h14 h1 h2
      obtain ⟨a, rfl⟩ : ∃ a, fuel₁ = a + 1 := ⟨fuel₁ - 1, by omega⟩
      obtain ⟨b, rfl⟩ : ∃ b, fuel₂ = b + 1 := ⟨fuel₂ - 1, by omega⟩
      unfold children_from_sub_node
      apply List.flatMap_congr
      intro pc hpc
      obtain ⟨p, t⟩ := pc
      obtain ⟨hplt, hsm⟩ := (mem_sub_children s p t).mp hpc
      by_cases htn : t.turn ≠ s.turn
      · simp only [if_pos htn]
      · have hteq : t.turn = s.turn := not_not.mp htn
        simp only [if_neg htn]
        congr 1
        have hlen : t.board.length = 14 := by
          rw [sub_move_ok_length s p t hsm]; exact h14
        have hdec := sub_move_play_stones_lt s p t h14 hsm hteq
        exact ih a (by omega) t b hlen (by omega) (by omega)

/-- Faithfulness of `Node.children`'s fuel: any fuel above the termination measure
(in particular the `board.sum + 1` the definition uses) yields the same result. -/
theorem children_fuel_irrelevant (n : Node) (fuel : Nat) (h14 : n.sub.board.length = 14)
    (h : play_stones n.sub.board + 1 ≤ fuel) :
    (children_from_sub_node fuel n.sub).map (fun mv_node => (mv_node.1.reverse, mv_node.2))
      = n.children := by
  unfold Node.children
  rw [children_fuel_stable fuel n.sub (n.sub.board.sum + 1) h14 h
    (by unfold play_stones; omega)]

/-! ### Claims -/

/-- C1 (code bug): alpha-beta equivalence fails.  At the position with board
`[0,0,0,3,2,0,0,0,0,0,0,0,0,0]`, White to move, depth 2, the source's `minimax`
(top-level `alpha = Score::MIN`, `beta = Score::MAX`) returns score 3, while the
unpruned full minimax over the same move generator returns 5: sharing one mutable
`alpha`/`beta` pair across every level of the recursion (instead of per-call values)
lets a bound set inside one subtree incorrectly cut siblings elsewhere, changing the
returned value, contrary to the spec and to the Wikipedia pseudocode the source says
it follows. -/
theorem claim1_pruning_changes_value :
    (minimax 2 ⟨⟨[0,0,0,3,2,0,0,0,0,0,0,0,0,0], Player.white⟩⟩ SCORE_MIN SCORE_MAX).1.2 = 3 ∧
    (minimax_unpruned 2 ⟨⟨[0,0,0,3,2,0,0,0,0,0,0,0,0,0], Player.white⟩⟩).2 = 5 ∧
    (minimax 2 ⟨⟨[0,0,0,3,2,0,0,0,0,0,0,0,0,0], Player.white⟩⟩ SCORE_MIN SCORE_MAX).1.2 ≠
      (minimax_unpruned 2 ⟨⟨[0,0,0,3,2,0,0,0,0,0,0,0,0,0], Player.white⟩⟩).2 := by
  decide

/-- C2 (counterexample): the move generator can return the empty sequence even though
the player to move still has a stone: with board `[0,0,0,0,0,1,0,4,4,4,4,4,4,0]` and
White to move, the only sow lands in White's store keeping the turn, after which White
has no stones, so the recursive expansion yields no complete compound move at all. -/
theorem claim2_children_iff_cex :
    Node.children ⟨⟨[0,0,0,0,0,1,0,4,4,4,4,4,4,0], Player.white⟩⟩ = [] ∧
    ¬ own_pockets_empty ⟨[0,0,0,0,0,1,0,4,4,4,4,4,4,0], Player.white⟩ := by
  decide

/-- C2 (amended): only the forward direction holds — if the player to move has zero
stones in all six of their own playing pockets, the move generator returns an empty
sequence.  (The converse fails, see the counterexample.) -/
theorem claim2_children_empty_of_pockets_empty (s : SubNode) (h : own_pockets_empty s) :
    Node.children ⟨s⟩ = [] := by
  have h2 := sub_children_eq_nil s h
  simp [Node.children, children_from_sub_node, h2]

/-- C2 witness: the amended theorem applied to a concrete position with all of
White's pockets empty. -/
theorem claim2_witness :
    Node.children ⟨⟨[0,0,0,0,0,0,0,4,0,0,0,0,0,0], Player.white⟩⟩ = [] :=
  claim2_children_empty_of_pockets_empty ⟨[0,0,0,0,0,0,0,4,0,0,0,0,0,0], Player.white⟩
    (by decide)

/-- C7 (amended): the `Option<Move>` returned by `minimax` is `None` exactly when the
position is terminal (empty move list) or the depth is 0; in particular it is `None`
at depth 0 even on non-terminal positions, so "only when terminal" fails (see the
counterexample). -/
theorem claim7_minimax_none_iff (d : Nat) (n : Node) (alpha beta : Int) :
    (minimax d n alpha beta).1.1 = none ↔ (n.children = [] ∨ d = 0) := by
  cases d with
  | zero =>
      simp only [minimax]
      split <;> simp
  | succ k =>
      simp only [minimax]
      by_cases hc : n.children.isEmpty
      · simp [hc, List.isEmpty_iff.mp hc]
      · have hne : n.children ≠ [] := by
          simp only [Bool.not_eq_true] at hc
          exact List.isEmpty_eq_false.mp hc
        cases hg : n.get_turn <;> simp [hc, hne]

/-- C7 (counterexample): a non-terminal position (one stone in White's pocket 0, one
legal move) on which the depth-0 search still returns `None`. -/
theorem claim7_none_cex :
    (minimax 0 ⟨⟨[1,0,0,0,0,0,0,0,0,0,0,0,0,0], Player.white⟩⟩ SCORE_MIN SCORE_MAX).1.1
      = none ∧
    Node.children ⟨⟨[1,0,0,0,0,0,0,0,0,0,0,0,0,0], Player.white⟩⟩ ≠ [] := by
  decide

/-- C9 (amended): at depth 0 the search returns the store-only heuristic
`Node::eval` — provided the position is not terminal; a terminal position returns
`final_score` instead (see the counterexample). -/
theorem claim9_depth0_eval (n : Node) (alpha beta : Int) (h : n.children ≠ []) :
    (minimax 0 n alpha beta).1.2 = n.eval := by
  simp only [minimax]
  rw [if_neg (by simpa [List.isEmpty_iff] using h)]

/-- C9 (counterexample): on a terminal position (White has no stones, Black has one in
pocket 7) the depth-0 search returns `final_score = -1`, not `eval = 0`. -/
theorem claim9_depth0_cex :
    (minimax 0 ⟨⟨[0,0,0,0,0,0,0,1,0,0,0,0,0,0], Player.white⟩⟩ SCORE_MIN SCORE_MAX).1.2
      ≠ Node.eval ⟨⟨[0,0,0,0,0,0,0,1,0,0,0,0,0,0], Player.white⟩⟩ := by
  decide

/-- C9 witness: the amended theorem applied to a concrete non-terminal position. -/
theorem claim9_witness :
    (minimax 0 ⟨⟨[0,2,0,0,0,0,3,0,0,0,0,0,0,1], Player.white⟩⟩ SCORE_MIN SCORE_MAX).1.2
      = Node.eval ⟨⟨[0,2,0,0,0,0,3,0,0,0,0,0,0,1], Player.white⟩⟩ :=
  claim9_depth0_eval ⟨⟨[0,2,0,0,0,0,3,0,0,0,0,0,0,1], Player.white⟩⟩ SCORE_MIN SCORE_MAX
    (by decide)

/-- C3: capture rule.  For a successful sow (pocket in the mover's own range, holding
stones) whose walk `sowLoop` ends at `cursor`, a playing pocket of the mover that is
not the store and then holds exactly 1 stone, the capture step adds to the mover's
store that 1 stone plus the stones then in the directly-opposite pocket `12 - cursor`,
zeroes both the landing and the opposite pocket, and toggles the player to move
(increments are relative to the post-walk board `b1`, the board right before the
capture step). -/
theorem claim3_capture (s : SubNode) (p : Nat) (b1 : List Nat) (cursor : Nat)
    (h14 : s.board.length = 14)
    (hrange : ¬(p < start_index s.turn ∨ end_index s.turn ≤ p))
    (hstones : s.board.getD p 0 ≠ 0)
    (hsow : sowLoop (enemy_pocket s.turn) (s.board.set p 0) p (s.board.getD p 0)
      = (b1, cursor))
    (hnotstore : cursor ≠ own_pocket s.turn)
    (hland1 : b1.getD cursor 0 = 1)
    (hcs : start_index s.turn ≤ cursor) (hce : cursor < end_index s.turn) :
    (s.sub_move p).2 = none ∧
    (s.sub_move p).1.board.getD (own_pocket s.turn) 0
      = b1.getD (own_pocket s.turn) 0 + b1.getD (12 - cursor) 0 + 1 ∧
    (s.sub_move p).1.board.getD cursor 0 = 0 ∧
    (s.sub_move p).1.board.getD (12 - cursor) 0 = 0 ∧
    (s.sub_move p).1.turn = s.turn.toggled := by
  have hopp : SubNode.opposite cursor = 12 - cursor := rfl
  have hfacts : own_pocket s.turn < 14 ∧ 12 - cursor < 14 ∧ cursor < 14 ∧
      own_pocket s.turn ≠ 12 - cursor ∧ own_pocket s.turn ≠ cursor ∧
      12 - cursor ≠ cursor := by
    revert hcs hce hnotstore
    cases s.turn <;>
      simp only [own_pocket, start_index, end_index, WHITE_POCKET, BLACK_POCKET,
        BOARD_SIZE] <;>
      intros <;> omega
  obtain ⟨ho14, hop14, hc14, hne1, hne2, hne3⟩ := hfacts
  have hb1len : b1.length = 14 := by
    have := sowLoop_length (enemy_pocket s.turn) (s.board.getD p 0) (s.board.set p 0) p
    rw [hsow] at this
    simpa [List.length_set, h14] using this
  have hmove : s.sub_move p =
      ({ board := ((b1.set (own_pocket s.turn)
            (b1.getD (own_pocket s.turn) 0 + (b1.getD (12 - cursor) 0 + 1))).set
            (12 - cursor) 0).set cursor 0,
         turn := s.turn.toggled }, none) := by
    unfold SubNode.sub_move
    rw [if_neg hrange, if_neg hstones]
    dsimp only
    rw [hsow]
    dsimp only
    rw [if_neg hnotstore, if_pos ⟨hland1, hcs, hce⟩, hopp]
  rw [hmove]
  refine ⟨rfl, ?_, ?_, ?_, rfl⟩
  · rw [getD_set_ne (Ne.symm hne2), getD_set_ne (Ne.symm hne1),
      getD_set_self (by omega)]
    omega
  · rw [getD_set_self (by simp [List.length_set]; omega)]
  · rw [getD_set_ne (Ne.symm hne3), getD_set_self (by simp [List.length_set]; omega)]

/-- C3 witness: White sows one stone from pocket 0, lands in the empty pocket 1, and
captures the 4 stones of the opposite pocket 11 plus the landed stone. -/
theorem claim3_witness :
    (SubNode.sub_move ⟨[1,0,4,4,4,4,0,4,4,4,4,4,4,0], Player.white⟩ 0).2 = none ∧
    (SubNode.sub_move ⟨[1,0,4,4,4,4,0,4,4,4,4,4,4,0], Player.white⟩ 0).1.board.getD
        (own_pocket Player.white) 0
      = ([0,1,4,4,4,4,0,4,4,4,4,4,4,0] : List Nat).getD (own_pocket Player.white) 0
        + ([0,1,4,4,4,4,0,4,4,4,4,4,4,0] : List Nat).getD (12 - 1) 0 + 1 ∧
    (SubNode.sub_move ⟨[1,0,4,4,4,4,0,4,4,4,4,4,4,0], Player.white⟩ 0).1.board.getD 1 0
      = 0 ∧
    (SubNode.sub_move ⟨[1,0,4,4,4,4,0,4,4,4,4,4,4,0], Player.white⟩ 0).1.board.getD
        (12 - 1) 0 = 0 ∧
    (SubNode.sub_move ⟨[1,0,4,4,4,4,0,4,4,4,4,4,4,0], Player.white⟩ 0).1.turn
      = Player.white.toggled :=
  claim3_capture ⟨[1,0,4,4,4,4,0,4,4,4,4,4,4,0], Player.white⟩ 0
    [0,1,4,4,4,4,0,4,4,4,4,4,4,0] 1 (by decide) (by decide) (by decide) (by decide)
    (by decide) (by decide) (by decide) (by decide)

/-- C4: every `(Move, Position)` pair produced by the move generator replays: applying
the move's pockets in order with `full_move` succeeds and reaches exactly the paired
position. -/
theorem claim4_children_replay (n : Node) (mv : Move) (m : Node)
    (h : (mv, m) ∈ n.children) : n.full_move mv = (m, none) := by
  unfold Node.children at h
  rw [List.mem_map] at h
  obtain ⟨⟨frag, m'⟩, hmem, heq⟩ := h
  simp only [Prod.mk.injEq] at heq
  obtain ⟨h1, h2⟩ := heq
  subst h1
  subst h2
  exact children_from_sub_node_sound _ n.sub frag m' hmem

/-- C4 witness: the single generated move of a one-stone position replays to its
paired child (a capture into White's store). -/
theorem claim4_witness :
    Node.full_move ⟨⟨[1,0,0,0,0,0,0,0,0,0,0,0,0,0], Player.white⟩⟩ [0]
      = (⟨⟨[0,0,0,0,0,0,1,0,0,0,0,0,0,0], Player.black⟩⟩, none) :=
  claim4_children_replay ⟨⟨[1,0,0,0,0,0,0,0,0,0,0,0,0,0], Player.white⟩⟩ [0]
    ⟨⟨[0,0,0,0,0,0,1,0,0,0,0,0,0,0], Player.black⟩⟩ (by decide)

/-- C5: stone conservation.  Every successful `sub_move` on a 14-slot board preserves
the sum of all pocket counts, and consequently every successful sequence of sows from
the default position reaches a board whose counts sum to 48. -/
theorem claim5_stone_conservation :
    (∀ (s : SubNode) (p : Nat) (t : SubNode), s.board.length = 14 →
        s.sub_move p = (t, none) → t.board.sum = s.board.sum) ∧
    (∀ (mv : Move) (m : Node), (Node.mk SubNode.start).full_move mv = (m, none) →
        m.sub.board.sum = 48) := by
  constructor
  · intro s p t h14 h
    exact sub_move_ok_sum s p t h14 h
  · intro mv m h
    have := full_move_ok_sum mv ⟨SubNode.start⟩ m (by decide) h
    rw [this.1]
    decide

/-- C5 witness: the conservation theorem applied to the opening sow from pocket 0, and
the sequence form applied to that same one-sow sequence. -/
theorem claim5_witness :
    (⟨[0,5,5,5,5,4,0,4,4,4,4,4,4,0], Player.black⟩ : SubNode).board.sum
      = SubNode.start.board.sum ∧
    (Node.mk ⟨[0,5,5,5,5,4,0,4,4,4,4,4,4,0], Player.black⟩).sub.board.sum = 48 :=
  ⟨claim5_stone_conservation.1 SubNode.start 0 ⟨[0,5,5,5,5,4,0,4,4,4,4,4,4,0], Player.black⟩
      (by decide) (by decide),
   claim5_stone_conservation.2 [0] ⟨⟨[0,5,5,5,5,4,0,4,4,4,4,4,4,0], Player.black⟩⟩
      (by decide)⟩

/-- C6: `sub_move` fails with `IndexError` exactly when the pocket is outside the
mover's own playing range, with `EmptyError` exactly when it is an in-range pocket
holding zero stones, succeeds otherwise, and on either error leaves the position
unchanged. -/
theorem claim6_sub_move_errors (s : SubNode) (p : Nat) :
    ((s.sub_move p).2 = some Error.indexError ↔
      ¬(start_index s.turn ≤ p ∧ p < end_index s.turn)) ∧
    ((s.sub_move p).2 = some Error.emptyError ↔
      (start_index s.turn ≤ p ∧ p < end_index s.turn ∧ s.board.getD p 0 = 0)) ∧
    ((s.sub_move p).2 = none ↔
      (start_index s.turn ≤ p ∧ p < end_index s.turn ∧ s.board.getD p 0 ≠ 0)) ∧
    (∀ e, (s.sub_move p).2 = some e → (s.sub_move p).1 = s) := by
  by_cases h1 : p < start_index s.turn ∨ end_index s.turn ≤ p
  · rw [sub_move_index_err s p h1]
    refine ⟨iff_of_true rfl (by omega), iff_of_false (by simp) ?_,
      iff_of_false (by simp) ?_, fun e _ => rfl⟩
    · rintro ⟨ha, hb, _⟩
      omega
    · rintro ⟨ha, hb, _⟩
      omega
  · by_cases h2 : s.board.getD p 0 = 0
    · rw [sub_move_empty_err s p h1 h2]
      push_neg at h1
      refine ⟨iff_of_false (by simp) (by omega),
        iff_of_true rfl ⟨h1.1, h1.2, h2⟩,
        iff_of_false (by simp) ?_, fun e _ => rfl⟩
      rintro ⟨_, _, hne⟩
      exact hne h2
    · have hsnd := sub_move_ok_snd s p h1 h2
      push_neg at h1
      rw [hsnd]
      refine ⟨iff_of_false (by simp) (by omega),
        iff_of_false (by simp) ?_,
        iff_of_true rfl ⟨h1.1, h1.2, h2⟩, ?_⟩
      · rintro ⟨_, _, h0⟩
        exact h2 h0
      · intro e he
        exact absurd he (by simp)

/-- C6 witness: playing pocket 99 from the start position is an index error leaving
the position unchanged. -/
theorem claim6_witness :
    (SubNode.sub_move SubNode.start 99).1 = SubNode.start ∧
    (SubNode.sub_move SubNode.start 99).2 = some Error.indexError :=
  ⟨(claim6_sub_move_errors SubNode.start 99).2.2.2 Error.indexError (by decide),
   by decide⟩

/-- C8 (counterexample): `full_move` is not atomic.  From the start position the
sequence `[0, 99]` fails (99 is no pocket of Black's), yet the returned position is
not the original: the first sow stays applied. -/
theorem claim8_atomic_cex :
    ((Node.mk SubNode.start).full_move [0, 99]).2 = some Error.indexError ∧
    ((Node.mk SubNode.start).full_move [0, 99]).1 ≠ Node.mk SubNode.start := by
  decide

/-- C8 (amended): when `full_move` returns an error, the returned position is the one
reached by successfully applying some prefix of the sequence — the failing sow itself
leaves the position unchanged, but sows already applied are not rolled back. -/
theorem claim8_error_keeps_applied_sows (n : Node) (mv : Move) (m : Node) (e : Error)
    (h : n.full_move mv = (m, some e)) :
    ∃ k, n.full_move (mv.take k) = (m, none) := by
  induction mv generalizing n with
  | nil =>
      unfold Node.full_move at h
      exact absurd (congrArg Prod.snd h) (by simp)
  | cons p rest ih =>
      unfold Node.full_move at h
      rcases hsm : n.sub.sub_move p with ⟨t, o⟩
      cases o with
      | none =>
          rw [hsm] at h
          obtain ⟨k, hk⟩ := ih ⟨t⟩ h
          refine ⟨k + 1, ?_⟩
          show Node.full_move n (p :: rest.take k) = (m, none)
          unfold Node.full_move
          rw [hsm]
          exact hk
      | some e' =>
          rw [hsm] at h
          have hts : t = n.sub := by
            have h0 : (n.sub.sub_move p).2 = some e' := by rw [hsm]
            have := sub_move_fst_of_err n.sub p e' h0
            rw [hsm] at this
            exact this
          injection h with hm _
          refine ⟨0, ?_⟩
          show Node.full_move n [] = (m, none)
          unfold Node.full_move
          rw [← hm, hts]

/-- C8 witness: the amended theorem applied to the failing sequence `[0, 99]` from the
start position; the successful prefix is `[0]`. -/
theorem claim8_witness :
    ∃ k, (Node.mk SubNode.start).full_move ([0, 99].take k)
      = (⟨⟨[0,5,5,5,5,4,0,4,4,4,4,4,4,0], Player.black⟩⟩, none) :=
  claim8_error_keeps_applied_sows (Node.mk SubNode.start) [0, 99]
    ⟨⟨[0,5,5,5,5,4,0,4,4,4,4,4,4,0], Player.black⟩⟩ Error.indexError (by decide)

/-- C10 (spec-modelled `final_score`): on a position with zero stones in all six of
White's playing pockets, `final_score` equals White's store minus (Black's store plus
the stones in all six of Black's playing pockets). -/
theorem claim10_final_sweep (n : Node)
    (h : ∀ p < 6, n.sub.board.getD p 0 = 0) :
    n.final_score = (n.sub.board.getD WHITE_POCKET 0 : Int)
      - ((n.sub.board.getD BLACK_POCKET 0 : Int)
          + (((List.range 6).map fun p => n.sub.board.getD (7 + p) 0).sum : Int)) := by
  unfold Node.final_score white_total black_total
  have h6 : ((List.range 6).map fun p => n.sub.board.getD p 0).sum = 0 := by
    have hr : List.range 6 = [0, 1, 2, 3, 4, 5] := rfl
    rw [hr]
    simp only [List.map_cons, List.map_nil, List.sum_cons, List.sum_nil]
    rw [h 0 (by omega), h 1 (by omega), h 2 (by omega), h 3 (by omega), h 4 (by omega),
      h 5 (by omega)]
    rfl
  rw [h6]
  push_cast
  ring

/-- C10 witness: a swept terminal position, `7 - (5 + 3) = -1`. -/
theorem claim10_witness :
    Node.final_score ⟨⟨[0,0,0,0,0,0,7,1,2,0,0,0,0,5], Player.white⟩⟩ = -1 := by
  rw [claim10_final_sweep ⟨⟨[0,0,0,0,0,0,7,1,2,0,0,0,0,5], Player.white⟩⟩ (by decide)]
  decide

end Mancala
